import Mathlib

/-
Verification of the archodex-backend ingestion and identity model.

Shallow embedding of:
  - src/src/resource.rs   : ResourceId and its storage-engine array codec
  - src/src/db.rs         : transaction error resolution (check_first_real_error)
  - src/src/report.rs     : resource-tree upserter and principal-chain / event accumulator
  - src/src/report_api_key.rs : capability key generation and validation

Timestamps (chrono DateTime<Utc>) are embedded as Nat: the claims use only
their linear order. Rust Vec becomes List, Option stays Option, fallible
functions return Except or Option.
-/

/-- Part of a hierarchical resource identifier: a (type, id) pair of strings.
Embeds ResourceIdPart from src/src/resource.rs. -/
structure ResourceIdPart where
  type : String
  id : String
deriving DecidableEq, Repr

/-- A resource identity: ordered sequence of parts (newtype over Vec in the
source, src/src/resource.rs line 127). -/
abbrev ResourceId := List ResourceIdPart

/-- Shallow embedding of the storage engine value type (surrealdb sql Value),
restricted to the constructors the resource codec manipulates: strings
(Strand), arrays, and one representative constructor that is neither, so the
failure branches of the decoder are real. -/
inductive SVal where
  | strand : String → SVal
  | array : List SVal → SVal
  | number : Int → SVal

/-- Encoding of a ResourceIdPart into an engine value: a two-element array
of strings (impl From for surrealdb Value, src/src/resource.rs lines 17-21). -/
def svalOfResourceIdPart (p : ResourceIdPart) : SVal :=
  .array [.strand p.type, .strand p.id]

/-- Encoding of a ResourceId into the engine-native array key (impl From for
surrealdb Array, src/src/resource.rs lines 137-146). -/
def arrayOfResourceId (r : ResourceId) : List SVal :=
  r.map svalOfResourceIdPart

/-- Decoding of a ResourceIdPart from an engine array (impl TryFrom,
src/src/resource.rs lines 23-43): the array must have exactly two elements,
the second (popped first) must be a string (the id), then the first must be a
string (the type). -/
def resourceIdPartOfArray (a : List SVal) : Except String ResourceIdPart :=
  match a with
  | [t, i] =>
    match i with
    | .strand i' =>
      match t with
      | .strand t' => .ok ⟨t', i'⟩
      | _ => .error "ResourceIdPart called with an array with a non-strand first element"
    | _ => .error "ResourceIdPart called with an array with a non-strand second element"
  | _ => .error "ResourceIdPart called with an array with a length other than two"

/-- Decoding of a ResourceId from an engine array (impl TryFrom,
src/src/resource.rs lines 162-173): every element must itself be an array
decoding to a part; the first failure aborts, as the Rust collect over
Results does. -/
def resourceIdOfArray (a : List SVal) : Except String ResourceId :=
  a.mapM (fun part =>
    match part with
    | .array p => resourceIdPartOfArray p
    | _ => .error "ResourceId called with a non-array ResourceIdPart element")

/-- Decoding a single encoded part recovers it exactly. -/
theorem resourceIdPartOfArray_encode (p : ResourceIdPart) :
    resourceIdPartOfArray [.strand p.type, .strand p.id] = .ok p := rfl

/-- C8: for every ResourceId value x (a sequence of (type, id) string pairs),
decoding the engine-native array encoding of x yields exactly x:
resourceIdOfArray (arrayOfResourceId x) = Except.ok x. -/
theorem resource_id_roundtrip (x : ResourceId) :
    resourceIdOfArray (arrayOfResourceId x) = .ok x := by
  induction x with
  | nil => rfl
  | cons p ps ih =>
    simp only [arrayOfResourceId, List.map_cons, resourceIdOfArray, List.mapM_cons,
      svalOfResourceIdPart, resourceIdPartOfArray_encode]
    simp only [arrayOfResourceId, resourceIdOfArray] at ih
    rw [ih]
    rfl

/-- Error type of a statement inside a transaction: either the generic
QueryNotExecuted status or a real error (surrealdb Error, src/src/db.rs). -/
inductive DbErr where
  | queryNotExecuted
  | other : String → DbErr
deriving DecidableEq, Repr

/-- Model of Rust Iterator::min_by_key over a list: the first element with a
minimal key (replacement happens only on strictly smaller keys). -/
def minByKeyFirst (f : α → Nat) : List α → Option α
  | [] => none
  | x :: xs => some (xs.foldl (fun acc b => if f b < f acc then b else acc) x)

/-- Model of Rust Iterator::max_by_key over a list: the last element with a
maximal key (replacement happens on greater-or-equal keys). -/
def maxByKeyLast (f : α → Nat) : List α → Option α
  | [] => none
  | x :: xs => some (xs.foldl (fun acc b => if f acc ≤ f b then b else acc) x)

theorem minByKeyFirst_fold_spec (f : α → Nat) :
    ∀ (xs : List α) (x : α),
      (xs.foldl (fun acc b => if f b < f acc then b else acc) x) ∈ x :: xs ∧
      ∀ y ∈ x :: xs, f (xs.foldl (fun acc b => if f b < f acc then b else acc) x) ≤ f y := by
  intro xs
  induction xs with
  | nil =>
    intro x
    refine ⟨List.mem_singleton.mpr rfl, ?_⟩
    intro y hy
    rw [List.mem_singleton] at hy
    subst hy
    exact le_refl _
  | cons z zs ih =>
    intro x
    simp only [List.foldl_cons]
    obtain ⟨hmem, hmin⟩ := ih (if f z < f x then z else x)
    have hsx : f (if f z < f x then z else x) ≤ f x := by
      split
      · omega
      · exact le_refl _
    have hsz : f (if f z < f x then z else x) ≤ f z := by
      split
      · exact le_refl _
      · omega
    have hhead := hmin _ (List.mem_cons_self _ _)
    constructor
    · rcases List.mem_cons.mp hmem with h | h
      · rw [h]
        split
        · exact List.mem_cons_of_mem _ (List.mem_cons_self _ _)
        · exact List.mem_cons_self _ _
      · exact List.mem_cons_of_mem _ (List.mem_cons_of_mem _ h)
    · intro y hy
      rcases List.mem_cons.mp hy with h | h
      · subst h
        exact le_trans hhead hsx
      · rcases List.mem_cons.mp h with h' | h'
        · subst h'
          exact le_trans hhead hsz
        · exact hmin _ (List.mem_cons_of_mem _ h')

/-- The element selected by minByKeyFirst is a member with a minimal key. -/
theorem minByKeyFirst_spec (f : α → Nat) (x : α) (xs : List α) :
    ∃ m, minByKeyFirst f (x :: xs) = some m ∧ m ∈ x :: xs ∧ ∀ y ∈ x :: xs, f m ≤ f y := by
  obtain ⟨h1, h2⟩ := minByKeyFirst_fold_spec f xs x
  exact ⟨_, rfl, h1, h2⟩

theorem maxByKeyLast_fold_spec (f : α → Nat) :
    ∀ (xs : List α) (x : α),
      (xs.foldl (fun acc b => if f acc ≤ f b then b else acc) x) ∈ x :: xs ∧
      ∀ y ∈ x :: xs, f y ≤ f (xs.foldl (fun acc b => if f acc ≤ f b then b else acc) x) := by
  intro xs
  induction xs with
  | nil =>
    intro x
    refine ⟨List.mem_singleton.mpr rfl, ?_⟩
    intro y hy
    rw [List.mem_singleton] at hy
    subst hy
    exact le_refl _
  | cons z zs ih =>
    intro x
    simp only [List.foldl_cons]
    obtain ⟨hmem, hmax⟩ := ih (if f x ≤ f z then z else x)
    have hsx : f x ≤ f (if f x ≤ f z then z else x) := by
      split
      · omega
      · exact le_refl _
    have hsz : f z ≤ f (if f x ≤ f z then z else x) := by
      split
      · exact le_refl _
      · omega
    have hhead := hmax _ (List.mem_cons_self _ _)
    constructor
    · rcases List.mem_cons.mp hmem with h | h
      · rw [h]
        split
        · exact List.mem_cons_of_mem _ (List.mem_cons_self _ _)
        · exact List.mem_cons_self _ _
      · exact List.mem_cons_of_mem _ (List.mem_cons_of_mem _ h)
    · intro y hy
      rcases List.mem_cons.mp hy with h | h
      · subst h
        exact le_trans hsx hhead
      · rcases List.mem_cons.mp h with h' | h'
        · subst h'
          exact le_trans hsz hhead
        · exact hmax _ (List.mem_cons_of_mem _ h')

/-- The element selected by maxByKeyLast is a member with a maximal key. -/
theorem maxByKeyLast_spec (f : α → Nat) (x : α) (xs : List α) :
    ∃ m, maxByKeyLast f (x :: xs) = some m ∧ m ∈ x :: xs ∧ ∀ y ∈ x :: xs, f y ≤ f m := by
  obtain ⟨h1, h2⟩ := maxByKeyLast_fold_spec f xs x
  exact ⟨_, rfl, h1, h2⟩

/-- Embeds check_first_real_error (src/src/db.rs lines 408-433): given the
per-statement errors of a transaction result set (statement number paired
with the error), return Ok when there are none; otherwise filter out the
QueryNotExecuted errors, take the one with the minimal statement number, and
surface it; if every error was QueryNotExecuted, fall back to returning
QueryNotExecuted (defensive warn branch in the source). -/
def check_first_real_error (errors : List (Nat × DbErr)) : Except DbErr Unit :=
  if errors = [] then .ok ()
  else
    match minByKeyFirst (fun e => e.1)
        (errors.filter (fun e => decide (e.2 ≠ DbErr.queryNotExecuted))) with
    | some (_, err) => .error err
    | none => .error .queryNotExecuted

/-- C9: for every transaction result set containing at least one
per-statement error that is not QueryNotExecuted, check_first_real_error
returns the error of a lowest-numbered statement among those whose error is
not QueryNotExecuted; in particular it never returns a QueryNotExecuted
error when a real error is present. -/
theorem check_first_real_error_spec (errors : List (Nat × DbErr))
    (hreal : ∃ e ∈ errors, e.2 ≠ DbErr.queryNotExecuted) :
    ∃ n err, check_first_real_error errors = .error err ∧ (n, err) ∈ errors ∧
      err ≠ DbErr.queryNotExecuted ∧
      ∀ m g, (m, g) ∈ errors → g ≠ DbErr.queryNotExecuted → n ≤ m := by
  obtain ⟨e, hmem, hne⟩ := hreal
  have hnil : errors ≠ [] := by
    intro h
    subst h
    exact absurd hmem (List.not_mem_nil e)
  have hfmem : e ∈ errors.filter (fun e => decide (e.2 ≠ DbErr.queryNotExecuted)) := by
    rw [List.mem_filter]
    exact ⟨hmem, by simpa using hne⟩
  obtain ⟨x, xs, hxxs⟩ : ∃ x xs,
      errors.filter (fun e => decide (e.2 ≠ DbErr.queryNotExecuted)) = x :: xs := by
    cases hf : errors.filter (fun e => decide (e.2 ≠ DbErr.queryNotExecuted)) with
    | nil =>
      rw [hf] at hfmem
      exact absurd hfmem (List.not_mem_nil e)
    | cons x xs => exact ⟨x, xs, rfl⟩
  obtain ⟨m, hm1, hm2, hm3⟩ := minByKeyFirst_spec (fun e => e.1) x xs
  rw [← hxxs] at hm2 hm3
  have hmE : m ∈ errors := (List.mem_filter.mp hm2).1
  have hmNE : m.2 ≠ DbErr.queryNotExecuted := by
    have := (List.mem_filter.mp hm2).2
    simpa using this
  refine ⟨m.1, m.2, ?_, by simpa using hmE, hmNE, ?_⟩
  · unfold check_first_real_error
    rw [if_neg hnil, hxxs, hm1]
  · intro k g hkg hgne
    have hkgf : (k, g) ∈ errors.filter (fun e => decide (e.2 ≠ DbErr.queryNotExecuted)) := by
      rw [List.mem_filter]
      exact ⟨hkg, by simpa using hgne⟩
    exact hm3 _ hkgf

/-- C9 witness: a concrete result set where statement 0 reports
QueryNotExecuted and statement 2 reports the real error, while statement 1
has no error entry. -/
theorem check_first_real_error_spec_witness :
    ∃ n err,
      check_first_real_error
        [(0, DbErr.queryNotExecuted), (2, DbErr.other "index conflict"),
          (3, DbErr.queryNotExecuted)] = .error err ∧
      (n, err) ∈ [(0, DbErr.queryNotExecuted), (2, DbErr.other "index conflict"),
          (3, DbErr.queryNotExecuted)] ∧
      err ≠ DbErr.queryNotExecuted ∧
      ∀ m g, (m, g) ∈ [(0, DbErr.queryNotExecuted), (2, DbErr.other "index conflict"),
          (3, DbErr.queryNotExecuted)] → g ≠ DbErr.queryNotExecuted → n ≤ m :=
  check_first_real_error_spec _ ⟨(2, DbErr.other "index conflict"), by decide, by decide⟩

/-- Minimal JSON value model (serde json Value) carried opaquely by the
attribute merge operation; no claim inspects attribute contents. -/
inductive Json where
  | null
  | bool (b : Bool)
  | num (n : Int)
  | str (s : String)
  | arr (elems : List Json)
  | obj (fields : List (String × Json))

/-- A node of a submitted resource tree (struct ResourceTreeNode,
src/src/report.rs lines 52-61). -/
inductive ResourceTreeNode where
  | mk (id : ResourceIdPart) (globally_unique : Option Bool)
      (first_seen_at last_seen_at : Nat)
      (attributes : Option (List (String × Json)))
      (contains : Option (List ResourceTreeNode))

def ResourceTreeNode.id : ResourceTreeNode → ResourceIdPart
  | .mk nid _ _ _ _ _ => nid

def ResourceTreeNode.globally_unique : ResourceTreeNode → Option Bool
  | .mk _ gu _ _ _ _ => gu

def ResourceTreeNode.first_seen_at : ResourceTreeNode → Nat
  | .mk _ _ f _ _ _ => f

def ResourceTreeNode.last_seen_at : ResourceTreeNode → Nat
  | .mk _ _ _ l _ _ => l

/-- An operation emitted by the resource-tree upserter: either the resource
upsert statement (INSERT ... ON DUPLICATE KEY UPDATE last_seen_at = <new>,
src/src/report.rs lines 92-127) or the separate attributes merge statement
(lines 129-154). -/
inductive ReportOp where
  | resourceUpsert (id : ResourceId) (first_seen_at last_seen_at : Nat)
  | resourceAttributesMerge (id : ResourceId) (attributes : List (String × Json))

/-- The statements emitted for one node itself: the resource upsert for the
full path, followed by the attributes merge when attributes are present and
nonempty (src/src/report.rs lines 92-154). -/
def nodeSelfOps (p : ResourceId) (first_seen_at last_seen_at : Nat)
    (attrs : Option (List (String × Json))) : List ReportOp :=
  match attrs with
  | some a =>
    if a.isEmpty then [.resourceUpsert p first_seen_at last_seen_at]
    else [.resourceUpsert p first_seen_at last_seen_at, .resourceAttributesMerge p a]
  | none => [.resourceUpsert p first_seen_at last_seen_at]

mutual
/-- Embeds upsert_resource_tree_node (src/src/report.rs lines 87-165). The
mutable prefix of the source is threaded explicitly: the function returns the
emitted operations together with the prefix state after the final pop. A
globally unique node (lines 96-101) switches to a fresh empty prefix for
itself and its subtree; the caller prefix is then untouched, so it is
returned unchanged. Otherwise the node id is pushed (line 103), children
recurse on the extended prefix (lines 156-160), and the final pop (line 162)
drops the last element. -/
def upsert_resource_tree_node (pre : ResourceId) : ResourceTreeNode → List ReportOp × ResourceId
  | .mk nid gu first_seen_at last_seen_at attrs children =>
    let base : ResourceId := if gu = some true then [] else pre
    let s : List ReportOp × ResourceId :=
      match children with
      | some cs => upsert_children (base ++ [nid]) cs
      | none => ([], base ++ [nid])
    (nodeSelfOps (base ++ [nid]) first_seen_at last_seen_at attrs ++ s.1,
      if gu = some true then pre else s.2.dropLast)

/-- The children loop of upsert_resource_tree_node (src/src/report.rs lines
156-160), threading the prefix state left to right. -/
def upsert_children (pre : ResourceId) : List ResourceTreeNode → List ReportOp × ResourceId
  | [] => ([], pre)
  | c :: cs =>
    let s1 := upsert_resource_tree_node pre c
    let s2 := upsert_children s1.2 cs
    (s1.1 ++ s2.1, s2.2)
end

theorem upsert_restore_aux (k : Nat) :
    (∀ (pre : ResourceId) (n : ResourceTreeNode), sizeOf n ≤ k →
      (upsert_resource_tree_node pre n).2 = pre) ∧
    (∀ (pre : ResourceId) (cs : List ResourceTreeNode), sizeOf cs ≤ k →
      (upsert_children pre cs).2 = pre) := by
  induction k with
  | zero =>
    constructor
    · intro pre n hn
      obtain ⟨nid, gu, f, l, attrs, children⟩ := n
      simp at hn
    · intro pre cs hcs
      cases cs with
      | nil => simp [upsert_children]
      | cons c cs' => simp at hcs
  | succ k ih =>
    constructor
    · intro pre n hn
      obtain ⟨nid, gu, f, l, attrs, children⟩ := n
      cases children with
      | none =>
        by_cases hgu : gu = some true
        · simp [upsert_resource_tree_node, hgu]
        · simp [upsert_resource_tree_node, hgu]
      | some cs =>
        have hcs : sizeOf cs ≤ k := by
          simp at hn
          omega
        by_cases hgu : gu = some true
        · simp [upsert_resource_tree_node, hgu]
        · simp only [upsert_resource_tree_node, hgu, if_false]
          rw [ih.2 _ cs hcs]
          simp
    · intro pre cs hcs
      cases cs with
      | nil => simp [upsert_children]
      | cons c cs' =>
        have hc : sizeOf c ≤ k := by
          simp at hcs
          omega
        have hcs' : sizeOf cs' ≤ k := by
          simp at hcs
          omega
        simp only [upsert_children]
        rw [ih.2 (upsert_resource_tree_node pre c).2 cs' hcs', ih.1 pre c hc]

/-- The tree walk restores the prefix it was given: each node pops exactly
what it pushed, so nothing leaks into sibling subtrees. -/
theorem upsert_resource_tree_node_snd (pre : ResourceId) (n : ResourceTreeNode) :
    (upsert_resource_tree_node pre n).2 = pre :=
  (upsert_restore_aux (sizeOf n)).1 pre n (le_refl _)

/-- The children loop restores the prefix it was given. -/
theorem upsert_children_snd (pre : ResourceId) (cs : List ResourceTreeNode) :
    (upsert_children pre cs).2 = pre :=
  (upsert_restore_aux (sizeOf cs)).2 pre cs (le_refl _)

/-- A stored Resource row, reduced to the fields the upsert statement
touches (src/src/resource.rs struct Resource). -/
structure ResourceRow where
  first_seen_at : Nat
  last_seen_at : Nat
deriving DecidableEq, Repr

/-- Modelled from the spec: the storage engine contract of section 6 applies
an emitted resource upsert with insert-on-duplicate-key-update semantics.
When no row exists for the identity, the VALUES clause creates it with the
statement first_seen_at and last_seen_at; when a row exists, the statement
ON DUPLICATE KEY UPDATE expression is applied, which per the source
(src/src/report.rs lines 117-121) assigns only last_seen_at. -/
def applyResourceUpsert (row : Option ResourceRow) (first_seen_at last_seen_at : Nat) :
    ResourceRow :=
  match row with
  | none => ⟨first_seen_at, last_seen_at⟩
  | some r => ⟨r.first_seen_at, last_seen_at⟩

theorem nodeSelfOps_head (p : ResourceId) (f l : Nat) (attrs : Option (List (String × Json))) :
    ∃ rest, nodeSelfOps p f l attrs = .resourceUpsert p f l :: rest := by
  cases attrs with
  | none => exact ⟨[], rfl⟩
  | some a =>
    cases ha : a.isEmpty
    · exact ⟨[.resourceAttributesMerge p a], by simp [nodeSelfOps, ha]⟩
    · exact ⟨[], by simp [nodeSelfOps, ha]⟩

/-- The first operation a node emits is always its own resource upsert, for
the path built from the effective prefix extended with the node id. -/
theorem upsert_resource_tree_node_fst (pre : ResourceId) (nid : ResourceIdPart)
    (gu : Option Bool) (f l : Nat) (attrs : Option (List (String × Json)))
    (children : Option (List ResourceTreeNode)) :
    ∃ rest, (upsert_resource_tree_node pre (.mk nid gu f l attrs children)).1
      = ReportOp.resourceUpsert ((if gu = some true then [] else pre) ++ [nid]) f l :: rest := by
  obtain ⟨r0, h0⟩ := nodeSelfOps_head ((if gu = some true then [] else pre) ++ [nid]) f l attrs
  cases children with
  | none => exact ⟨r0, by simp [upsert_resource_tree_node, h0]⟩
  | some cs =>
    exact ⟨r0 ++ (upsert_children ((if gu = some true then [] else pre) ++ [nid]) cs).1,
      by simp [upsert_resource_tree_node, h0]⟩

/-- C1 counterexample: a node whose identity already has a stored row with a
later last_seen_at. The emitted upsert operation carries the node timestamps
2 and 3; applying its on-duplicate update to the stored row (first_seen_at 1,
last_seen_at 5) yields last_seen_at 3, not the greater of existing and new
(5): the emitted operation regresses last_seen_at when the new report
carries an earlier timestamp. -/
theorem resource_upsert_regresses_last_seen_counterexample :
    (upsert_resource_tree_node []
        (.mk ⟨"Host", "h1"⟩ none 2 3 none none)).1
      = [ReportOp.resourceUpsert [⟨"Host", "h1"⟩] 2 3] ∧
    applyResourceUpsert (some ⟨1, 5⟩) 2 3 = ⟨1, 3⟩ ∧
    ¬ (applyResourceUpsert (some ⟨1, 5⟩) 2 3).last_seen_at = max 5 3 := by
  refine ⟨?_, rfl, by decide⟩
  simp [upsert_resource_tree_node, nodeSelfOps]

/-- C1 amended: for every resource-tree node, the first emitted operation is
the resource upsert for the node identity path carrying the node
first_seen_at and last_seen_at; applied to an existing stored row it sets
last_seen_at to the node last_seen_at unconditionally (it may regress when
the new report carries an earlier timestamp) and leaves the stored
first_seen_at unchanged; applied to no row it creates the row with both
node timestamps. -/
theorem resource_upsert_sets_last_seen_unconditionally
    (pre : ResourceId) (nid : ResourceIdPart) (gu : Option Bool)
    (first_seen_at last_seen_at : Nat) (attrs : Option (List (String × Json)))
    (children : Option (List ResourceTreeNode)) :
    ∃ rest,
      (upsert_resource_tree_node pre (.mk nid gu first_seen_at last_seen_at attrs children)).1
        = ReportOp.resourceUpsert ((if gu = some true then [] else pre) ++ [nid])
            first_seen_at last_seen_at :: rest ∧
      (∀ row : ResourceRow,
        applyResourceUpsert (some row) first_seen_at last_seen_at
          = ⟨row.first_seen_at, last_seen_at⟩) ∧
      applyResourceUpsert none first_seen_at last_seen_at = ⟨first_seen_at, last_seen_at⟩ := by
  obtain ⟨rest, hrest⟩ := upsert_resource_tree_node_fst pre nid gu first_seen_at last_seen_at
    attrs children
  exact ⟨rest, hrest, fun row => rfl, rfl⟩

/-- C5: a globally unique node, at any nesting depth (in particular nested
under another globally unique node), emits operations that do not depend on
the caller prefix at all; its own resource upsert is keyed by the
single-element path holding only its own (type, id) pair, and descendants
build on that reset path; the walk returns the caller prefix unchanged, so
the reset never leaks into sibling subtrees. -/
theorem globally_unique_resets_path (pre : ResourceId) (n : ResourceTreeNode)
    (h : n.globally_unique = some true) :
    (upsert_resource_tree_node pre n).1 = (upsert_resource_tree_node [] n).1 ∧
    (∃ rest, (upsert_resource_tree_node pre n).1
        = ReportOp.resourceUpsert [n.id] n.first_seen_at n.last_seen_at :: rest) ∧
    (upsert_resource_tree_node pre n).2 = pre := by
  obtain ⟨nid, gu, f, l, attrs, children⟩ := n
  simp only [ResourceTreeNode.globally_unique] at h
  subst h
  refine ⟨?_, ?_, upsert_resource_tree_node_snd pre _⟩
  · cases children <;> simp [upsert_resource_tree_node]
  · obtain ⟨rest, hrest⟩ := upsert_resource_tree_node_fst pre nid (some true) f l attrs children
    refine ⟨rest, ?_⟩
    simp only [ResourceTreeNode.id, ResourceTreeNode.first_seen_at,
      ResourceTreeNode.last_seen_at]
    simpa using hrest

/-- C5 witness: a globally unique node reached under a three-element ancestor
prefix emits its upsert keyed only by its own (type, id) pair, and the
caller prefix survives. -/
theorem globally_unique_resets_path_witness :
    (ResourceTreeNode.mk ⟨"Api", "endpoint"⟩ (some true) 7 9 none
        (some [ResourceTreeNode.mk ⟨"child", "x"⟩ none 7 9 none none])).globally_unique
      = some true ∧
    ((upsert_resource_tree_node [⟨"a", "1"⟩, ⟨"b", "2"⟩, ⟨"c", "3"⟩]
          (ResourceTreeNode.mk ⟨"Api", "endpoint"⟩ (some true) 7 9 none
            (some [ResourceTreeNode.mk ⟨"child", "x"⟩ none 7 9 none none]))).1
        = (upsert_resource_tree_node []
            (ResourceTreeNode.mk ⟨"Api", "endpoint"⟩ (some true) 7 9 none
              (some [ResourceTreeNode.mk ⟨"child", "x"⟩ none 7 9 none none]))).1 ∧
      (∃ rest, (upsert_resource_tree_node [⟨"a", "1"⟩, ⟨"b", "2"⟩, ⟨"c", "3"⟩]
            (ResourceTreeNode.mk ⟨"Api", "endpoint"⟩ (some true) 7 9 none
              (some [ResourceTreeNode.mk ⟨"child", "x"⟩ none 7 9 none none]))).1
          = ReportOp.resourceUpsert
              [(ResourceTreeNode.mk ⟨"Api", "endpoint"⟩ (some true) 7 9 none
                  (some [ResourceTreeNode.mk ⟨"child", "x"⟩ none 7 9 none none])).id]
              (ResourceTreeNode.mk ⟨"Api", "endpoint"⟩ (some true) 7 9 none
                  (some [ResourceTreeNode.mk ⟨"child", "x"⟩ none 7 9 none none])).first_seen_at
              (ResourceTreeNode.mk ⟨"Api", "endpoint"⟩ (some true) 7 9 none
                  (some [ResourceTreeNode.mk ⟨"child", "x"⟩ none 7 9 none
                    none])).last_seen_at :: rest) ∧
      (upsert_resource_tree_node [⟨"a", "1"⟩, ⟨"b", "2"⟩, ⟨"c", "3"⟩]
          (ResourceTreeNode.mk ⟨"Api", "endpoint"⟩ (some true) 7 9 none
            (some [ResourceTreeNode.mk ⟨"child", "x"⟩ none 7 9 none none]))).2
        = [⟨"a", "1"⟩, ⟨"b", "2"⟩, ⟨"c", "3"⟩]) :=
  ⟨rfl, globally_unique_resets_path [⟨"a", "1"⟩, ⟨"b", "2"⟩, ⟨"c", "3"⟩]
    (ResourceTreeNode.mk ⟨"Api", "endpoint"⟩ (some true) 7 9 none
      (some [ResourceTreeNode.mk ⟨"child", "x"⟩ none 7 9 none none])) rfl⟩

/-- A principal-chain element (struct Principal, src/src/report.rs lines
23-28): a resource identity optionally annotated with the event type that
caused the next hop. -/
structure Principal where
  id : ResourceId
  event : Option String
deriving DecidableEq, Repr

/-- An observed event of a capture (struct Event, src/src/report.rs lines
63-69). -/
structure Event where
  type : String
  first_seen_at : Nat
  last_seen_at : Nat
deriving DecidableEq, Repr

/-- One event capture of a report (struct EventCapture, src/src/report.rs
lines 71-77). -/
structure EventCapture where
  principals : List Principal
  resources : List ResourceId
  events : List Event
deriving DecidableEq, Repr

/-- The principal_chain INSERT statement emitted per capture
(src/src/report.rs lines 189-195): record id is the full principals
sequence; VALUES carry the capture-wide first and last seen; the ON
DUPLICATE KEY UPDATE expression assigns last_seen_at. -/
structure PrincipalChainUpsert where
  id : List Principal
  first_seen_at : Nat
  last_seen_at : Nat
deriving DecidableEq, Repr

/-- One event INSERT RELATION statement (src/src/report.rs lines 242-248):
keyed by (principal id, resource, type); carries the chain id appended to
principal_chains, the has_direct_principal_chain value bound on create, the
event timestamps, and whether the conditional has_direct_principal_chain =
true fragment is present in the on-duplicate update (it is exactly when the
bound value is true, lines 222-227). -/
structure EventUpsert where
  principal : Principal
  resource : ResourceId
  type : String
  chain_id : List Principal
  has_direct_principal_chain : Bool
  first_seen_at : Nat
  last_seen_at : Nat
deriving DecidableEq, Repr

/-- A statement emitted by the event accumulator, in emission order. -/
inductive EventOpStmt where
  | chain : PrincipalChainUpsert → EventOpStmt
  | event : EventUpsert → EventOpStmt
deriving DecidableEq, Repr

/-- Embeds upsert_events (src/src/report.rs lines 169-288). The source
unwraps min_by_key over first_seen_at and max_by_key over last_seen_at of
the capture events (lines 170-182), which panics when the events list is
empty: the embedding returns none in exactly that case. Otherwise it emits
the principal_chain upsert followed by one event upsert per element of the
cross product principals x resources x events, in loop order. The
has_direct_principal_chain value compares the principal by value with the
last element of the principals list (lines 219-222). -/
def upsert_events (report : EventCapture) : Option (List EventOpStmt) :=
  match minByKeyFirst (fun e => e.first_seen_at) report.events,
      maxByKeyLast (fun e => e.last_seen_at) report.events with
  | some emin, some emax =>
    some (.chain ⟨report.principals, emin.first_seen_at, emax.last_seen_at⟩ ::
      (report.principals.map (fun principal =>
        (report.resources.map (fun resource =>
          report.events.map (fun event =>
            EventOpStmt.event ⟨principal, resource, event.type, report.principals,
              decide (some principal = report.principals.getLast?),
              event.first_seen_at, event.last_seen_at⟩))).flatten)).flatten)
  | _, _ => none

/-- The principal-chain statements among a batch. -/
def chainStmtsOf (stmts : List EventOpStmt) : List PrincipalChainUpsert :=
  stmts.filterMap (fun s =>
    match s with
    | .chain c => some c
    | .event _ => none)

/-- The event-edge statements among a batch. -/
def eventStmtsOf (stmts : List EventOpStmt) : List EventUpsert :=
  stmts.filterMap (fun s =>
    match s with
    | .chain _ => none
    | .event e => some e)

/-- C10: for every event capture with an empty events list, the event
accumulation has no result (the source unwraps the minimum and maximum over
the empty list and panics; there is no error return path at this interface),
and for every capture with a nonempty events list it produces a batch:
non-emptiness is exactly the precondition. -/
theorem upsert_events_none_iff_empty_events (c : EventCapture) :
    upsert_events c = none ↔ c.events = [] := by
  cases hev : c.events with
  | nil => simp [upsert_events, hev, minByKeyFirst, maxByKeyLast]
  | cons e es => simp [upsert_events, hev, minByKeyFirst, maxByKeyLast]

/-- A stored PrincipalChain record, reduced to the fields the statement
touches (src/src/principal_chain.rs). -/
structure PrincipalChainRow where
  first_seen_at : Nat
  last_seen_at : Nat
deriving DecidableEq, Repr

/-- Modelled from the spec: the storage engine contract of section 6 applies
the principal_chain statement with insert-on-duplicate-key-update semantics.
When no record exists for the id, the VALUES clause creates it; when one
exists, the statement ON DUPLICATE KEY UPDATE expression is applied, which
per the source (src/src/report.rs line 193) assigns only last_seen_at. -/
def applyPrincipalChainUpsert (row : Option PrincipalChainRow) (s : PrincipalChainUpsert) :
    PrincipalChainRow :=
  match row with
  | none => ⟨s.first_seen_at, s.last_seen_at⟩
  | some r => ⟨r.first_seen_at, s.last_seen_at⟩

theorem minByKeyFirst_eq_some_spec (f : α → Nat) (l : List α) (m : α)
    (h : minByKeyFirst f l = some m) : m ∈ l ∧ ∀ y ∈ l, f m ≤ f y := by
  cases l with
  | nil => simp [minByKeyFirst] at h
  | cons x xs =>
    obtain ⟨m', hm', hmem, hmin⟩ := minByKeyFirst_spec f x xs
    rw [hm'] at h
    injection h with h
    subst h
    exact ⟨hmem, hmin⟩

theorem maxByKeyLast_eq_some_spec (f : α → Nat) (l : List α) (m : α)
    (h : maxByKeyLast f l = some m) : m ∈ l ∧ ∀ y ∈ l, f y ≤ f m := by
  cases l with
  | nil => simp [maxByKeyLast] at h
  | cons x xs =>
    obtain ⟨m', hm', hmem, hmax⟩ := maxByKeyLast_spec f x xs
    rw [hm'] at h
    injection h with h
    subst h
    exact ⟨hmem, hmax⟩

theorem join_map_singleton (g : α → β) (l : List α) :
    (l.map (fun x => [g x])).flatten = l.map g := by
  induction l with
  | nil => rfl
  | cons x xs ih => simp [ih]

/-- C7 amended: for every event capture the accumulator handles (nonempty
events), exactly one PrincipalChain upsert is emitted; it is keyed by the
full principals sequence, its first_seen_at is the minimum of the capture
events first_seen_at values and its last_seen_at the maximum of their
last_seen_at values; on conflict with an existing record the stored
last_seen_at is set to that computed chain last seen unconditionally (not
advanced to a maximum with the existing value), and first_seen_at is left
unchanged. -/
theorem principal_chain_upsert_spec (c : EventCapture) (stmts : List EventOpStmt)
    (h : upsert_events c = some stmts) :
    ∃ ch : PrincipalChainUpsert,
      chainStmtsOf stmts = [ch] ∧
      ch.id = c.principals ∧
      ch.first_seen_at ∈ c.events.map (fun e => e.first_seen_at) ∧
      (∀ e ∈ c.events, ch.first_seen_at ≤ e.first_seen_at) ∧
      ch.last_seen_at ∈ c.events.map (fun e => e.last_seen_at) ∧
      (∀ e ∈ c.events, e.last_seen_at ≤ ch.last_seen_at) ∧
      (∀ row : PrincipalChainRow,
        applyPrincipalChainUpsert (some row) ch = ⟨row.first_seen_at, ch.last_seen_at⟩) ∧
      applyPrincipalChainUpsert none ch = ⟨ch.first_seen_at, ch.last_seen_at⟩ := by
  unfold upsert_events at h
  split at h
  case h_1 emin emax hmin hmax =>
    injection h with h
    subst h
    obtain ⟨hminMem, hminLe⟩ := minByKeyFirst_eq_some_spec _ _ _ hmin
    obtain ⟨hmaxMem, hmaxLe⟩ := maxByKeyLast_eq_some_spec _ _ _ hmax
    refine ⟨⟨c.principals, emin.first_seen_at, emax.last_seen_at⟩, ?_, rfl, ?_, ?_, ?_, ?_,
      fun row => rfl, rfl⟩
    · simp only [chainStmtsOf, List.filterMap_cons]
      have : ∀ s ∈ (c.principals.map (fun principal =>
          (c.resources.map (fun resource =>
            c.events.map (fun event =>
              EventOpStmt.event ⟨principal, resource, event.type, c.principals,
                decide (some principal = c.principals.getLast?),
                event.first_seen_at, event.last_seen_at⟩))).flatten)).flatten,
          (match s with
            | .chain c => some c
            | .event _ => none : Option PrincipalChainUpsert) = none := by
        intro s hs
        simp only [List.mem_flatten, List.mem_map] at hs
        obtain ⟨l1, ⟨q, _, hq⟩, hs1⟩ := hs
        subst hq
        simp only [List.mem_flatten, List.mem_map] at hs1
        obtain ⟨l2, ⟨rr, _, hrr⟩, hs2⟩ := hs1
        subst hrr
        simp only [List.mem_map] at hs2
        obtain ⟨ev, _, hev⟩ := hs2
        subst hev
        rfl
      rw [List.filterMap_eq_nil_iff.mpr this]
    · exact List.mem_map_of_mem _ hminMem
    · exact hminLe
    · exact List.mem_map_of_mem _ hmaxMem
    · exact hmaxLe
  case h_2 =>
    exact absurd h (by simp)

/-- C7 counterexample: two captures with the same single-element chain. The
first carries an event with last_seen_at 10, the second an event with
last_seen_at 4. The second chain upsert, applied on conflict with the stored
record, sets last_seen_at to 4 rather than advancing it to the maximum of
the existing value (10) and the computed chain last seen (4). -/
theorem principal_chain_last_seen_counterexample :
    upsert_events ⟨[⟨[⟨"user", "alice"⟩], none⟩], [[⟨"db", "main"⟩]], [⟨"read", 0, 10⟩]⟩
      = some [.chain ⟨[⟨[⟨"user", "alice"⟩], none⟩], 0, 10⟩,
          .event ⟨⟨[⟨"user", "alice"⟩], none⟩, [⟨"db", "main"⟩], "read",
            [⟨[⟨"user", "alice"⟩], none⟩], true, 0, 10⟩] ∧
    upsert_events ⟨[⟨[⟨"user", "alice"⟩], none⟩], [[⟨"db", "main"⟩]], [⟨"read", 0, 4⟩]⟩
      = some [.chain ⟨[⟨[⟨"user", "alice"⟩], none⟩], 0, 4⟩,
          .event ⟨⟨[⟨"user", "alice"⟩], none⟩, [⟨"db", "main"⟩], "read",
            [⟨[⟨"user", "alice"⟩], none⟩], true, 0, 4⟩] ∧
    applyPrincipalChainUpsert
        (some (applyPrincipalChainUpsert none ⟨[⟨[⟨"user", "alice"⟩], none⟩], 0, 10⟩))
        ⟨[⟨[⟨"user", "alice"⟩], none⟩], 0, 4⟩
      = ⟨0, 4⟩ ∧
    ¬ ((4 : Nat) = max 10 4) := by
  refine ⟨?_, ?_, rfl, by decide⟩
  · rfl
  · rfl

/-- C7 witness: the chain upsert computed for a concrete capture with two
events spans both events and behaves as stated. -/
theorem principal_chain_upsert_spec_witness :
    ∃ ch : PrincipalChainUpsert,
      chainStmtsOf [.chain ⟨[⟨[⟨"svc", "s"⟩], none⟩], 3, 9⟩,
          .event ⟨⟨[⟨"svc", "s"⟩], none⟩, [⟨"db", "d"⟩], "read",
            [⟨[⟨"svc", "s"⟩], none⟩], true, 3, 7⟩,
          .event ⟨⟨[⟨"svc", "s"⟩], none⟩, [⟨"db", "d"⟩], "write",
            [⟨[⟨"svc", "s"⟩], none⟩], true, 4, 9⟩] = [ch] ∧
      ch.id = (⟨[⟨[⟨"svc", "s"⟩], none⟩], [[⟨"db", "d"⟩]],
          [⟨"read", 3, 7⟩, ⟨"write", 4, 9⟩]⟩ : EventCapture).principals ∧
      ch.first_seen_at ∈ (⟨[⟨[⟨"svc", "s"⟩], none⟩], [[⟨"db", "d"⟩]],
          [⟨"read", 3, 7⟩, ⟨"write", 4, 9⟩]⟩ : EventCapture).events.map
            (fun e => e.first_seen_at) ∧
      (∀ e ∈ (⟨[⟨[⟨"svc", "s"⟩], none⟩], [[⟨"db", "d"⟩]],
          [⟨"read", 3, 7⟩, ⟨"write", 4, 9⟩]⟩ : EventCapture).events,
        ch.first_seen_at ≤ e.first_seen_at) ∧
      ch.last_seen_at ∈ (⟨[⟨[⟨"svc", "s"⟩], none⟩], [[⟨"db", "d"⟩]],
          [⟨"read", 3, 7⟩, ⟨"write", 4, 9⟩]⟩ : EventCapture).events.map
            (fun e => e.last_seen_at) ∧
      (∀ e ∈ (⟨[⟨[⟨"svc", "s"⟩], none⟩], [[⟨"db", "d"⟩]],
          [⟨"read", 3, 7⟩, ⟨"write", 4, 9⟩]⟩ : EventCapture).events,
        e.last_seen_at ≤ ch.last_seen_at) ∧
      (∀ row : PrincipalChainRow,
        applyPrincipalChainUpsert (some row) ch = ⟨row.first_seen_at, ch.last_seen_at⟩) ∧
      applyPrincipalChainUpsert none ch = ⟨ch.first_seen_at, ch.last_seen_at⟩ :=
  principal_chain_upsert_spec
    ⟨[⟨[⟨"svc", "s"⟩], none⟩], [[⟨"db", "d"⟩]], [⟨"read", 3, 7⟩, ⟨"write", 4, 9⟩]⟩
    [.chain ⟨[⟨[⟨"svc", "s"⟩], none⟩], 3, 9⟩,
      .event ⟨⟨[⟨"svc", "s"⟩], none⟩, [⟨"db", "d"⟩], "read",
        [⟨[⟨"svc", "s"⟩], none⟩], true, 3, 7⟩,
      .event ⟨⟨[⟨"svc", "s"⟩], none⟩, [⟨"db", "d"⟩], "write",
        [⟨[⟨"svc", "s"⟩], none⟩], true, 4, 9⟩]
    (by rfl)

/-- An Event edge as stored (src/src/event.rs struct Event), reduced to the
fields the statement touches. -/
structure EventEdge where
  principal_chains : List (List Principal)
  has_direct_principal_chain : Bool
  first_seen_at : Nat
  last_seen_at : Nat
deriving DecidableEq, Repr

/-- Modelled from the spec: the append-to-principal_chains operator of the
on-duplicate update has set semantics (no duplicate entries; the schema file
resources.surql that defines the field is not under src): the chain id is
appended only when not already present. -/
def addPrincipalChain (l : List (List Principal)) (x : List Principal) :
    List (List Principal) :=
  if x ∈ l then l else l ++ [x]

/-- Modelled from the spec: the storage engine contract of section 6 applies
an event statement with insert-on-duplicate-key-update semantics. When no
edge exists for the (principal, resource, type) key, the VALUES clause
creates it with the single-element chain set, the bound
has_direct_principal_chain value and the event timestamps; when an edge
exists, the on-duplicate expression appends the chain id, assigns
last_seen_at, and forces has_direct_principal_chain to true exactly when the
statement carries that fragment (src/src/report.rs lines 242-248). -/
def applyEventUpsert (edge : Option EventEdge) (s : EventUpsert) : EventEdge :=
  match edge with
  | none => ⟨[s.chain_id], s.has_direct_principal_chain, s.first_seen_at, s.last_seen_at⟩
  | some e => ⟨addPrincipalChain e.principal_chains s.chain_id,
      e.has_direct_principal_chain || s.has_direct_principal_chain,
      e.first_seen_at, s.last_seen_at⟩

/-- The (principal, resource, type) key of an event statement. -/
def eventKey (s : EventUpsert) : ResourceId × ResourceId × String :=
  (s.principal.id, s.resource, s.type)

/-- Folding a sequence of event statements for one key into the (initially
absent) edge, in statement order. -/
def foldEventEdge (ops : List EventUpsert) : Option EventEdge :=
  ops.foldl (fun acc s => some (applyEventUpsert acc s)) none

/-- Folding further statements into an existing edge. -/
def foldEventEdgeFrom (e : EventEdge) (ops : List EventUpsert) : EventEdge :=
  ops.foldl (fun acc s => applyEventUpsert (some acc) s) e

theorem foldEventEdge_some_init (e : EventEdge) (ops : List EventUpsert) :
    ops.foldl (fun acc s => some (applyEventUpsert acc s)) (some e)
      = some (foldEventEdgeFrom e ops) := by
  induction ops generalizing e with
  | nil => rfl
  | cons s rest ih => simpa [foldEventEdgeFrom] using ih (applyEventUpsert (some e) s)

theorem foldEventEdge_append (ops1 ops2 : List EventUpsert) (e : EventEdge)
    (h : foldEventEdge ops1 = some e) :
    foldEventEdge (ops1 ++ ops2) = some (foldEventEdgeFrom e ops2) := by
  unfold foldEventEdge at h ⊢
  rw [List.foldl_append, h, foldEventEdge_some_init]

theorem addPrincipalChain_mem_self (l : List (List Principal)) (x : List Principal) :
    x ∈ addPrincipalChain l x := by
  by_cases h : x ∈ l <;> simp [addPrincipalChain, h]

theorem addPrincipalChain_of_mem {l : List (List Principal)} {x : List Principal}
    (h : x ∈ l) : addPrincipalChain l x = l := by
  simp [addPrincipalChain, h]

theorem addPrincipalChain_idem (l : List (List Principal)) (x : List Principal) :
    addPrincipalChain (addPrincipalChain l x) x = addPrincipalChain l x :=
  addPrincipalChain_of_mem (addPrincipalChain_mem_self l x)

theorem addPrincipalChain_grows {l : List (List Principal)} {x c : List Principal}
    (h : c ∈ l) : c ∈ addPrincipalChain l x := by
  by_cases hx : x ∈ l <;> simp [addPrincipalChain, hx, h]

theorem foldEventEdgeFrom_homog (a : List Principal) (l : Nat) :
    ∀ (ops : List EventUpsert) (e0 : EventEdge), ops ≠ [] →
      (∀ s ∈ ops, s.chain_id = a ∧ s.last_seen_at = l) →
      (foldEventEdgeFrom e0 ops).principal_chains
          = addPrincipalChain e0.principal_chains a ∧
      (foldEventEdgeFrom e0 ops).last_seen_at = l ∧
      (foldEventEdgeFrom e0 ops).first_seen_at = e0.first_seen_at := by
  intro ops
  induction ops with
  | nil => intro e0 hne _; exact absurd rfl hne
  | cons s rest ih =>
    intro e0 _ hall
    obtain ⟨hsa, hsl⟩ := hall s (List.mem_cons_self _ _)
    cases rest with
    | nil => simp [foldEventEdgeFrom, applyEventUpsert, hsa, hsl]
    | cons s2 rest2 =>
      have step : foldEventEdgeFrom e0 (s :: s2 :: rest2)
          = foldEventEdgeFrom (applyEventUpsert (some e0) s) (s2 :: rest2) := rfl
      rw [step]
      obtain ⟨ha, hl, hf⟩ := ih (applyEventUpsert (some e0) s) (by simp)
        (fun x hx => hall x (List.mem_cons_of_mem _ hx))
      refine ⟨?_, hl, ?_⟩
      · rw [ha]
        simp [applyEventUpsert, hsa, addPrincipalChain_idem]
      · rw [hf]
        simp [applyEventUpsert]

theorem foldEventEdge_homog (a : List Principal) (f l : Nat) (ops : List EventUpsert)
    (hne : ops ≠ [])
    (hall : ∀ s ∈ ops, s.chain_id = a ∧ s.first_seen_at = f ∧ s.last_seen_at = l) :
    ∃ e, foldEventEdge ops = some e ∧ e.principal_chains = [a] ∧
      e.first_seen_at = f ∧ e.last_seen_at = l := by
  cases ops with
  | nil => exact absurd rfl hne
  | cons s rest =>
    obtain ⟨hsa, hsf, hsl⟩ := hall s (List.mem_cons_self _ _)
    have hstart : foldEventEdge (s :: rest)
        = some (foldEventEdgeFrom (applyEventUpsert none s) rest) := by
      unfold foldEventEdge
      rw [List.foldl_cons, foldEventEdge_some_init]
    cases rest with
    | nil =>
      refine ⟨_, hstart, ?_, ?_, ?_⟩ <;>
        simp [foldEventEdgeFrom, applyEventUpsert, hsa, hsf, hsl]
    | cons s2 rest2 =>
      obtain ⟨ha, hl, hf⟩ := foldEventEdgeFrom_homog a l (s2 :: rest2)
        (applyEventUpsert none s) (by simp)
        (fun x hx => ⟨(hall x (List.mem_cons_of_mem _ hx)).1,
          (hall x (List.mem_cons_of_mem _ hx)).2.2⟩)
      refine ⟨_, hstart, ?_, ?_, hl⟩
      · rw [ha]
        simp [applyEventUpsert, hsa]
        exact addPrincipalChain_of_mem (List.mem_singleton.mpr rfl)
      · rw [hf]
        simp [applyEventUpsert, hsf]

/-- The batch emitted for a capture with one resource and one event: the
chain upsert followed by one event upsert per principal. -/
theorem upsert_events_single (prins : List Principal) (r : ResourceId) (t : String)
    (f l : Nat) :
    upsert_events ⟨prins, [r], [⟨t, f, l⟩]⟩
      = some (.chain ⟨prins, f, l⟩ ::
          prins.map (fun q => EventOpStmt.event ⟨q, r, t, prins,
            decide (some q = prins.getLast?), f, l⟩)) := by
  simp only [upsert_events, minByKeyFirst, maxByKeyLast, List.foldl_nil]
  congr 1
  simp only [List.map_cons, List.map_nil, List.flatten_cons, List.flatten_nil,
    List.append_nil, List.nil_append]
  rw [join_map_singleton]

theorem filterMap_some_map (g : α → β) (l : List α) :
    l.filterMap (fun x => some (g x)) = l.map g := by
  induction l with
  | nil => rfl
  | cons x xs ih => simp [List.filterMap_cons, ih]

theorem eventStmtsOf_single (prins : List Principal) (r : ResourceId) (t : String)
    (f l : Nat) :
    eventStmtsOf (.chain ⟨prins, f, l⟩ ::
        prins.map (fun q => EventOpStmt.event ⟨q, r, t, prins,
          decide (some q = prins.getLast?), f, l⟩))
      = prins.map (fun q => ⟨q, r, t, prins, decide (some q = prins.getLast?), f, l⟩) := by
  simp only [eventStmtsOf, List.filterMap_cons, List.filterMap_map]
  have : (fun q => (match EventOpStmt.event (⟨q, r, t, prins,
      decide (some q = prins.getLast?), f, l⟩ : EventUpsert) with
        | .chain _ => none
        | .event e => some e : Option EventUpsert))
      = fun q => some (⟨q, r, t, prins, decide (some q = prins.getLast?), f, l⟩ :
          EventUpsert) := rfl
  rw [Function.comp_def, this, filterMap_some_map]

/-- C2 amended: two event captures sharing a (principal, resource, type)
triple but carrying different chains produce one Event edge whose
principal_chains contains each of the two chain ids exactly once (set
semantics, and the set only grows under any further update); the edge
last_seen_at however is set to the second (later-processed) capture event
last_seen_at unconditionally, not to the maximum of the two capture
timestamps; first_seen_at stays that of the first capture. -/
theorem event_edge_two_captures_spec
    (p : Principal) (prins1 prins2 : List Principal) (r : ResourceId) (t : String)
    (f1 l1 f2 l2 : Nat)
    (h1 : p ∈ prins1) (h2 : p ∈ prins2) (hne : prins1 ≠ prins2) :
    ∃ stmts1 stmts2,
      upsert_events ⟨prins1, [r], [⟨t, f1, l1⟩]⟩ = some stmts1 ∧
      upsert_events ⟨prins2, [r], [⟨t, f2, l2⟩]⟩ = some stmts2 ∧
      ∃ e, foldEventEdge ((eventStmtsOf stmts1 ++ eventStmtsOf stmts2).filter
            (fun s => decide (eventKey s = (p.id, r, t)))) = some e ∧
        e.principal_chains = [prins1, prins2] ∧
        e.last_seen_at = l2 ∧
        e.first_seen_at = f1 ∧
        (∀ (e' : EventEdge) (s : EventUpsert) (cid : List Principal),
          cid ∈ e'.principal_chains →
            cid ∈ (applyEventUpsert (some e') s).principal_chains) := by
  refine ⟨_, _, upsert_events_single prins1 r t f1 l1, upsert_events_single prins2 r t f2 l2,
    ?_⟩
  rw [eventStmtsOf_single, eventStmtsOf_single, List.filter_append,
    List.filter_map, List.filter_map]
  set g1 : Principal → EventUpsert :=
    fun q => ⟨q, r, t, prins1, decide (some q = prins1.getLast?), f1, l1⟩ with hg1
  set g2 : Principal → EventUpsert :=
    fun q => ⟨q, r, t, prins2, decide (some q = prins2.getLast?), f2, l2⟩ with hg2
  set pred1 := fun q => decide (eventKey (g1 q) = (p.id, r, t)) with hpred1
  set pred2 := fun q => decide (eventKey (g2 q) = (p.id, r, t)) with hpred2
  have hp1 : p ∈ prins1.filter pred1 :=
    List.mem_filter.mpr ⟨h1, by simp [hpred1, hg1, eventKey]⟩
  have hp2 : p ∈ prins2.filter pred2 :=
    List.mem_filter.mpr ⟨h2, by simp [hpred2, hg2, eventKey]⟩
  have hne1 : (prins1.filter pred1).map g1 ≠ [] := by
    intro hcon
    rw [List.map_eq_nil_iff] at hcon
    rw [hcon] at hp1
    exact absurd hp1 (List.not_mem_nil p)
  have hne2 : (prins2.filter pred2).map g2 ≠ [] := by
    intro hcon
    rw [List.map_eq_nil_iff] at hcon
    rw [hcon] at hp2
    exact absurd hp2 (List.not_mem_nil p)
  have hall1 : ∀ s ∈ (prins1.filter pred1).map g1,
      s.chain_id = prins1 ∧ s.first_seen_at = f1 ∧ s.last_seen_at = l1 := by
    intro s hs
    obtain ⟨q, _, hq⟩ := List.mem_map.mp hs
    subst hq
    exact ⟨rfl, rfl, rfl⟩
  have hall2 : ∀ s ∈ (prins2.filter pred2).map g2,
      s.chain_id = prins2 ∧ s.last_seen_at = l2 := by
    intro s hs
    obtain ⟨q, _, hq⟩ := List.mem_map.mp hs
    subst hq
    exact ⟨rfl, rfl⟩
  obtain ⟨e1, he1, hc1, hf1, hl1⟩ :=
    foldEventEdge_homog prins1 f1 l1 ((prins1.filter pred1).map g1) hne1 hall1
  obtain ⟨ha2, hl2, hf2⟩ := foldEventEdgeFrom_homog prins2 l2
    ((prins2.filter pred2).map g2) e1 hne2 hall2
  refine ⟨foldEventEdgeFrom e1 ((prins2.filter pred2).map g2),
    foldEventEdge_append _ _ _ he1, ?_, hl2, ?_, ?_⟩
  · rw [ha2, hc1]
    have hne' : prins2 ≠ prins1 := fun hcon => hne hcon.symm
    simp [addPrincipalChain, hne']
  · rw [hf2, hf1]
  · intro e' s cid hmem
    simpa [applyEventUpsert] using addPrincipalChain_grows hmem

/-- C2 counterexample: two captures share the (principal, resource, type)
triple with different chains; the first capture event has last_seen_at 10,
the second 4. The resulting edge holds both chain ids, but its last_seen_at
is 4 — the second capture event timestamp — and not the maximum (10) of the
existing value and the new event last_seen_at as the claim states. -/
theorem event_edge_last_seen_counterexample :
    foldEventEdge ((eventStmtsOf ((upsert_events
          ⟨[⟨[⟨"user", "alice"⟩], none⟩], [[⟨"db", "main"⟩]],
            [⟨"read", 0, 10⟩]⟩).getD [])
        ++ eventStmtsOf ((upsert_events
          ⟨[⟨[⟨"svc", "gateway"⟩], none⟩, ⟨[⟨"user", "alice"⟩], none⟩],
            [[⟨"db", "main"⟩]], [⟨"read", 0, 4⟩]⟩).getD [])).filter
        (fun s => decide (eventKey s = ([⟨"user", "alice"⟩], [⟨"db", "main"⟩], "read"))))
      = some ⟨[[⟨[⟨"user", "alice"⟩], none⟩],
            [⟨[⟨"svc", "gateway"⟩], none⟩, ⟨[⟨"user", "alice"⟩], none⟩]],
          true, 0, 4⟩ ∧
    ¬ ((4 : Nat) = max 10 4) := by
  refine ⟨?_, by decide⟩
  rfl

/-- C2 witness: the amended statement applied to two concrete captures that
share the principal alice over the same resource and event type, with
distinct chains. -/
theorem event_edge_two_captures_spec_witness :
    (⟨[⟨"user", "alice"⟩], none⟩ : Principal) ∈
        ([⟨[⟨"user", "alice"⟩], none⟩] : List Principal) ∧
    (⟨[⟨"user", "alice"⟩], none⟩ : Principal) ∈
        ([⟨[⟨"svc", "gateway"⟩], none⟩, ⟨[⟨"user", "alice"⟩], none⟩] : List Principal) ∧
    ([⟨[⟨"user", "alice"⟩], none⟩] : List Principal)
        ≠ [⟨[⟨"svc", "gateway"⟩], none⟩, ⟨[⟨"user", "alice"⟩], none⟩] ∧
    ∃ stmts1 stmts2,
      upsert_events ⟨[⟨[⟨"user", "alice"⟩], none⟩], [[⟨"db", "main"⟩]],
          [⟨"read", 2, 10⟩]⟩ = some stmts1 ∧
      upsert_events ⟨[⟨[⟨"svc", "gateway"⟩], none⟩, ⟨[⟨"user", "alice"⟩], none⟩],
          [[⟨"db", "main"⟩]], [⟨"read", 3, 4⟩]⟩ = some stmts2 ∧
      ∃ e, foldEventEdge ((eventStmtsOf stmts1 ++ eventStmtsOf stmts2).filter
            (fun s => decide (eventKey s
              = ((⟨[⟨"user", "alice"⟩], none⟩ : Principal).id, [⟨"db", "main"⟩], "read"))))
          = some e ∧
        e.principal_chains = [[⟨[⟨"user", "alice"⟩], none⟩],
            [⟨[⟨"svc", "gateway"⟩], none⟩, ⟨[⟨"user", "alice"⟩], none⟩]] ∧
        e.last_seen_at = 4 ∧
        e.first_seen_at = 2 ∧
        (∀ (e' : EventEdge) (s : EventUpsert) (cid : List Principal),
          cid ∈ e'.principal_chains →
            cid ∈ (applyEventUpsert (some e') s).principal_chains) :=
  ⟨by decide, by decide, by decide,
    event_edge_two_captures_spec ⟨[⟨"user", "alice"⟩], none⟩
      [⟨[⟨"user", "alice"⟩], none⟩]
      [⟨[⟨"svc", "gateway"⟩], none⟩, ⟨[⟨"user", "alice"⟩], none⟩]
      [⟨"db", "main"⟩] "read" 2 10 3 4 (by decide) (by decide) (by decide)⟩

theorem foldEventEdgeFrom_flag (e0 : EventEdge) (ops : List EventUpsert) :
    (foldEventEdgeFrom e0 ops).has_direct_principal_chain
      = (e0.has_direct_principal_chain
          || ops.any (fun s => s.has_direct_principal_chain)) := by
  induction ops generalizing e0 with
  | nil => simp [foldEventEdgeFrom]
  | cons s rest ih =>
    have step : foldEventEdgeFrom e0 (s :: rest)
        = foldEventEdgeFrom (applyEventUpsert (some e0) s) rest := rfl
    rw [step, ih]
    simp [applyEventUpsert, Bool.or_assoc]

/-- C6: an edge built by folding any sequence of event statements has
has_direct_principal_chain true exactly when at least one contributing
statement carried the flag; the flag is monotonic under any further update;
and a statement generated by the accumulator carries the flag exactly when
its principal equals the last element of its capture principals sequence. -/
theorem has_direct_principal_chain_iff (ops : List EventUpsert) (e : EventEdge)
    (h : foldEventEdge ops = some e) :
    (e.has_direct_principal_chain = true
        ↔ ∃ s ∈ ops, s.has_direct_principal_chain = true) ∧
    (∀ (e' : EventEdge) (s : EventUpsert), e'.has_direct_principal_chain = true →
      (applyEventUpsert (some e') s).has_direct_principal_chain = true) ∧
    (∀ (c : EventCapture) (stmts : List EventOpStmt), upsert_events c = some stmts →
      ∀ s ∈ eventStmtsOf stmts,
        s.has_direct_principal_chain = decide (some s.principal = c.principals.getLast?)) := by
  refine ⟨?_, ?_, ?_⟩
  · cases ops with
    | nil => simp [foldEventEdge] at h
    | cons s rest =>
      have hstart : foldEventEdge (s :: rest)
          = some (foldEventEdgeFrom (applyEventUpsert none s) rest) := by
        unfold foldEventEdge
        rw [List.foldl_cons, foldEventEdge_some_init]
      rw [hstart] at h
      injection h with h
      subst h
      rw [foldEventEdgeFrom_flag]
      simp [applyEventUpsert, List.any_eq_true]
  · intro e' s he'
    simp [applyEventUpsert, he']
  · intro c stmts hsome s hs
    unfold upsert_events at hsome
    split at hsome
    case h_1 emin emax hmin hmax =>
      injection hsome with hsome
      subst hsome
      simp only [eventStmtsOf, List.filterMap_cons, List.mem_filterMap] at hs
      obtain ⟨x, hx, hxs⟩ := hs
      simp only [List.mem_flatten, List.mem_map] at hx
      obtain ⟨l1, ⟨q, _, hq⟩, hx1⟩ := hx
      subst hq
      simp only [List.mem_flatten, List.mem_map] at hx1
      obtain ⟨l2, ⟨rr, _, hrr⟩, hx2⟩ := hx1
      subst hrr
      simp only [List.mem_map] at hx2
      obtain ⟨ev, _, hev⟩ := hx2
      subst hev
      injection hxs with hxs
      subst hxs
      rfl
    case h_2 =>
      exact absurd hsome (by simp)

/-- C6 witness: a single concrete statement whose principal is the last
chain element creates an edge with the flag set, and the iff holds. -/
theorem has_direct_principal_chain_iff_witness :
    ((⟨[[⟨[⟨"user", "alice"⟩], none⟩]], true, 0, 10⟩ : EventEdge).has_direct_principal_chain
          = true
        ↔ ∃ s ∈ [(⟨⟨[⟨"user", "alice"⟩], none⟩, [⟨"db", "main"⟩], "read",
            [⟨[⟨"user", "alice"⟩], none⟩], true, 0, 10⟩ : EventUpsert)],
          s.has_direct_principal_chain = true) ∧
    (∀ (e' : EventEdge) (s : EventUpsert), e'.has_direct_principal_chain = true →
      (applyEventUpsert (some e') s).has_direct_principal_chain = true) ∧
    (∀ (c : EventCapture) (stmts : List EventOpStmt), upsert_events c = some stmts →
      ∀ s ∈ eventStmtsOf stmts,
        s.has_direct_principal_chain = decide (some s.principal = c.principals.getLast?)) :=
  has_direct_principal_chain_iff
    [⟨⟨[⟨"user", "alice"⟩], none⟩, [⟨"db", "main"⟩], "read",
      [⟨[⟨"user", "alice"⟩], none⟩], true, 0, 10⟩]
    ⟨[[⟨[⟨"user", "alice"⟩], none⟩]], true, 0, 10⟩ (by rfl)

/-- The decimal digit character for d (used to model the Rust Display
rendering of unsigned integers). -/
def digitChar (d : Nat) : Char :=
  match d with
  | 0 => '0'
  | 1 => '1'
  | 2 => '2'
  | 3 => '3'
  | 4 => '4'
  | 5 => '5'
  | 6 => '6'
  | 7 => '7'
  | 8 => '8'
  | _ => '9'

theorem digitChar_isDigit (d : Nat) (hd : d < 10) : (digitChar d).isDigit = true := by
  interval_cases d <;> decide

theorem digitChar_toNat (d : Nat) (hd : d < 10) : (digitChar d).toNat - 48 = d := by
  interval_cases d <;> decide

/-- Fuel-indexed decimal rendering accumulator: most significant digits are
produced by the recursive call, the current digit is prepended to acc. -/
def natToDecCharsAux : Nat → Nat → List Char → List Char
  | 0, _, acc => acc
  | fuel + 1, n, acc =>
    if n < 10 then digitChar n :: acc
    else natToDecCharsAux fuel (n / 10) (digitChar (n % 10) :: acc)

/-- Model of the Rust decimal Display rendering of an unsigned integer. -/
def natToDecChars (n : Nat) : List Char :=
  natToDecCharsAux (n + 1) n []

/-- The value a left fold assigns to a decimal digit string. -/
def digitsVal (s : List Char) : Nat :=
  s.foldl (fun a c => a * 10 + (c.toNat - 48)) 0

theorem natToDecCharsAux_acc (fuel : Nat) :
    ∀ (n : Nat) (acc : List Char), n < fuel →
      natToDecCharsAux fuel n acc = natToDecCharsAux fuel n [] ++ acc := by
  induction fuel with
  | zero => intro n acc hn; omega
  | succ fuel ih =>
    intro n acc hn
    by_cases h10 : n < 10
    · simp [natToDecCharsAux, h10]
    · have hdiv : n / 10 < n := Nat.div_lt_self (by omega) (by omega)
      have hfuel : n / 10 < fuel := by omega
      simp only [natToDecCharsAux, h10, if_false]
      rw [ih (n / 10) (digitChar (n % 10) :: acc) hfuel,
        ih (n / 10) [digitChar (n % 10)] hfuel]
      simp

theorem natToDecCharsAux_val (fuel : Nat) :
    ∀ n : Nat, n < fuel → digitsVal (natToDecCharsAux fuel n []) = n := by
  induction fuel with
  | zero => intro n hn; omega
  | succ fuel ih =>
    intro n hn
    by_cases h10 : n < 10
    · simp only [natToDecCharsAux, h10, if_true]
      simp only [digitsVal, List.foldl_cons, List.foldl_nil]
      rw [Nat.zero_mul, Nat.zero_add, digitChar_toNat n h10]
    · have hdiv : n / 10 < n := Nat.div_lt_self (by omega) (by omega)
      have hfuel : n / 10 < fuel := by omega
      simp only [natToDecCharsAux, h10, if_false]
      rw [natToDecCharsAux_acc fuel (n / 10) [digitChar (n % 10)] hfuel]
      simp only [digitsVal, List.foldl_append, List.foldl_cons, List.foldl_nil]
      have hv := ih (n / 10) hfuel
      simp only [digitsVal] at hv
      rw [hv, digitChar_toNat (n % 10) (by omega)]
      omega

theorem natToDecCharsAux_digits (fuel : Nat) :
    ∀ (n : Nat) (acc : List Char), n < fuel → (∀ c ∈ acc, c.isDigit = true) →
      ∀ c ∈ natToDecCharsAux fuel n acc, c.isDigit = true := by
  induction fuel with
  | zero => intro n acc hn; omega
  | succ fuel ih =>
    intro n acc hn hacc c hc
    by_cases h10 : n < 10
    · simp only [natToDecCharsAux, h10, if_true] at hc
      rcases List.mem_cons.mp hc with h | h
      · subst h
        exact digitChar_isDigit n h10
      · exact hacc c h
    · have hdiv : n / 10 < n := Nat.div_lt_self (by omega) (by omega)
      simp only [natToDecCharsAux, h10, if_false] at hc
      refine ih (n / 10) (digitChar (n % 10) :: acc) (by omega) ?_ c hc
      intro d hd
      rcases List.mem_cons.mp hd with h | h
      · subst h
        exact digitChar_isDigit _ (by omega)
      · exact hacc d h

theorem natToDecCharsAux_ne_nil (fuel : Nat) :
    ∀ n : Nat, n < fuel → natToDecCharsAux fuel n [] ≠ [] := by
  induction fuel with
  | zero => intro n hn; omega
  | succ fuel ih =>
    intro n hn
    by_cases h10 : n < 10
    · simp [natToDecCharsAux, h10]
    · have hdiv : n / 10 < n := Nat.div_lt_self (by omega) (by omega)
      simp only [natToDecCharsAux, h10, if_false]
      rw [natToDecCharsAux_acc fuel (n / 10) [digitChar (n % 10)] (by omega)]
      simp

theorem natToDecChars_digits (n : Nat) : ∀ c ∈ natToDecChars n, c.isDigit = true :=
  natToDecCharsAux_digits (n + 1) n [] (by omega) (by intro c hc; cases hc)

theorem natToDecChars_val (n : Nat) : digitsVal (natToDecChars n) = n :=
  natToDecCharsAux_val (n + 1) n (by omega)

theorem natToDecChars_ne_nil (n : Nat) : natToDecChars n ≠ [] :=
  natToDecCharsAux_ne_nil (n + 1) n (by omega)

theorem natToDecChars_no_underscore (n : Nat) : '_' ∉ natToDecChars n := by
  intro h
  have := natToDecChars_digits n '_' h
  simp [Char.isDigit] at this

/-- Model of the Rust str::parse::<u32>: an optional leading plus sign, then
a nonempty run of decimal digits, rejecting values that overflow u32. -/
def parseU32Chars (s : List Char) : Option Nat :=
  let t := if s.head? = some '+' then s.tail else s
  if t.isEmpty then none
  else if t.all (fun c => c.isDigit) then
    if t.foldl (fun a c => a * 10 + (c.toNat - 48)) 0 < 4294967296 then
      some (t.foldl (fun a c => a * 10 + (c.toNat - 48)) 0)
    else none
  else none

theorem parseU32Chars_natToDecChars (n : Nat) (hn : n < 4294967296) :
    parseU32Chars (natToDecChars n) = some n := by
  have hdigits := natToDecChars_digits n
  have hval := natToDecChars_val n
  have hne := natToDecChars_ne_nil n
  have hhead : (natToDecChars n).head? ≠ some '+' := by
    cases hs : natToDecChars n with
    | nil => exact absurd hs hne
    | cons c cs =>
      have hc : c.isDigit = true := hdigits c (hs ▸ List.mem_cons_self _ _)
      simp only [List.head?_cons, ne_eq, Option.some.injEq]
      intro hcon
      subst hcon
      simp [Char.isDigit] at hc
  unfold parseU32Chars
  rw [if_neg hhead]
  rw [if_neg (by simpa [List.isEmpty_iff] using hne)]
  rw [if_pos (List.all_eq_true.mpr hdigits)]
  simp only [digitsVal] at hval
  rw [hval, if_pos hn]

/-- The 128-bit AEAD key material, as bytes (Env::api_private_key). -/
abbrev AesKey := List Nat

/-- The protobuf message holding the encrypted plaintext
(proto::ReportApiKeyEncryptedContents; the generated field is a u32,
src/src/report_api_key.rs lines 74-76). -/
structure ReportApiKeyEncryptedContents where
  account_id : Nat
deriving DecidableEq, Repr

/-- The associated data authenticated but not encrypted
(proto::ReportApiKeyEncryptedAad, src/src/report_api_key.rs lines 78-82). -/
structure ReportApiKeyEncryptedAad where
  key_id : Nat
  endpoint : String
  account_salt : List Nat
deriving DecidableEq, Repr

/-- Modelled from the spec: an AES-128-GCM ciphertext (external aes_gcm
crate) is bound to the key, nonce, message and associated data that produced
it; the symbolic constructor records exactly that binding. -/
inductive Ciphertext where
  | mk (key : AesKey) (nonce : List Nat) (msg : ReportApiKeyEncryptedContents)
      (aad : ReportApiKeyEncryptedAad)
deriving DecidableEq, Repr

/-- Modelled from the spec: AEAD encryption with fresh nonce; always
succeeds and binds ciphertext to key, nonce and associated data
(cipher.encrypt, src/src/report_api_key.rs lines 84-92). -/
def aeadEncrypt (key : AesKey) (nonce : List Nat) (msg : ReportApiKeyEncryptedContents)
    (aad : ReportApiKeyEncryptedAad) : Ciphertext :=
  .mk key nonce msg aad

/-- Modelled from the spec: AEAD decryption authenticates the key, nonce and
associated data and recovers the message exactly when all three match the
ones used at encryption; otherwise it fails (cipher.decrypt,
src/src/report_api_key.rs lines 164-174). -/
def aeadDecrypt (key : AesKey) (nonce : List Nat) (ct : Ciphertext)
    (aad : ReportApiKeyEncryptedAad) : Option ReportApiKeyEncryptedContents :=
  match ct with
  | .mk k n m a => if k = key ∧ n = nonce ∧ a = aad then some m else none

/-- The outer protobuf payload of a key value (proto::ReportApiKey,
src/src/report_api_key.rs lines 94-100). -/
structure ProtoReportApiKey where
  report_api_key_version : Nat
  endpoint : String
  account_salt : List Nat
  nonce : List Nat
  encrypted_contents : Ciphertext
deriving DecidableEq, Repr

/-- Modelled from the spec: the base64 segment of a key value. The standard
base64 transport composed with the prost protobuf codec is an exact codec
(the generated .proto schema is not under src): the encoding of a payload
decodes back to it, and any other content fails to decode (this also covers
the nonempty-bytes check of the source, since a GCM ciphertext always
carries a 16-byte tag, so an encoded payload is never the empty byte
vector). The base64 standard alphabet contains no underscore. -/
inductive Base64Payload where
  | ofProto : ProtoReportApiKey → Base64Payload
  | invalid : String → Base64Payload
deriving DecidableEq, Repr

/-- The structured form of a report API key value string behind the literal
prefix: the decimal key id segment and the base64 payload segment. -/
structure ReportApiKeyValue where
  key_id_digits : List Char
  payload : Base64Payload
deriving DecidableEq, Repr

/-- The deployment configuration the codec uses: the configured endpoint and
the API private key material (src/src/env.rs). -/
structure EnvConfig where
  endpoint : String
  api_private_key : AesKey
deriving DecidableEq, Repr

/-- Embeds ReportApiKey::generate_value (src/src/report_api_key.rs lines
66-107): parse the account id as a u32 (this is where a 10-digit id above
the u32 maximum fails), build the plaintext and associated data, encrypt
with a fresh nonce, and assemble the value with the decimal key id and the
version-1 payload. -/
def generate_value (env : EnvConfig) (nonce : List Nat) (key_id : Nat)
    (account_id : List Char) (account_salt : List Nat) :
    Except String ReportApiKeyValue :=
  match parseU32Chars account_id with
  | none => .error "Invalid account ID"
  | some account_id_num =>
    let message : ReportApiKeyEncryptedContents := ⟨account_id_num⟩
    let aad : ReportApiKeyEncryptedAad := ⟨key_id, env.endpoint, account_salt⟩
    let encrypted_account_id := aeadEncrypt env.api_private_key nonce message aad
    .ok ⟨natToDecChars key_id,
      .ofProto ⟨1, env.endpoint, account_salt, nonce, encrypted_account_id⟩⟩

/-- Embeds ReportApiKey::validate_value (src/src/report_api_key.rs lines
111-187) from the key-id segment on: parse the key id, check its range,
decode the payload, check endpoint and salt length, decrypt against the
reconstructed associated data, and check the recovered account id range.
The prefix stripping and underscore split of the source (lines 114-122) are
embedded separately as parseReportApiKeyFront. -/
def validate_value (env : EnvConfig) (v : ReportApiKeyValue) :
    Except String (List Char × Nat) :=
  match parseU32Chars v.key_id_digits with
  | none => .error "Invalid report key value: Key ID is not a number"
  | some key_id =>
    if 100000 ≤ key_id ∧ key_id ≤ 999999 then
      match v.payload with
      | .invalid _ =>
        .error "Invalid report key value: Failed to decode report key value as protobuf"
      | .ofProto value =>
        if value.endpoint = env.endpoint then
          if value.account_salt.length = 16 then
            match aeadDecrypt env.api_private_key value.nonce value.encrypted_contents
                ⟨key_id, value.endpoint, value.account_salt⟩ with
            | none => .error "Invalid report key value: Failed to decrypt encrypted contents"
            | some encrypted_contents =>
              if 1000000000 ≤ encrypted_contents.account_id then
                .ok (natToDecChars encrypted_contents.account_id, key_id)
              else .error "Invalid report key value: Account ID is out of range"
          else .error "Invalid report key value: Account salt is not 16 bytes long"
        else .error "Invalid report key value: Incorrect endpoint"
    else .error "Invalid report key value: Key ID is out of range"

/-- The rendered key value string as a character list: the literal prefix,
the decimal key id, an underscore, then the base64 segment
(src/src/report_api_key.rs lines 102-106). -/
def reportApiKeyValueChars (keyIdChars payloadChars : List Char) : List Char :=
  "archodex_report_api_key_".toList ++ keyIdChars ++ ('_' :: payloadChars)

/-- Model of str::strip_prefix over character lists. -/
def stripPrefixChars : List Char → List Char → Option (List Char)
  | [], s => some s
  | _ :: _, [] => none
  | p :: ps, c :: cs => if p = c then stripPrefixChars ps cs else none

/-- Model of splitn(2, underscore): the characters before the first
underscore, and those after it when one exists. -/
def splitFirstUnderscore : List Char → List Char × Option (List Char)
  | [] => ([], none)
  | c :: cs =>
    if c = '_' then ([], some cs)
    else
      let r := splitFirstUnderscore cs
      (c :: r.1, r.2)

/-- The string-level front of validate_value (src/src/report_api_key.rs
lines 114-122): strip the literal prefix, then split once at the first
underscore into the key id segment and the base64 segment. -/
def parseReportApiKeyFront (s : List Char) : Except String (List Char × List Char) :=
  match stripPrefixChars "archodex_report_api_key_".toList s with
  | none => .error "Invalid report key value: Missing prefix"
  | some rest =>
    match splitFirstUnderscore rest with
    | (_, none) => .error "Invalid report key value: Invalid format"
    | (keyId, some value) => .ok (keyId, value)

theorem stripPrefixChars_append (p s : List Char) : stripPrefixChars p (p ++ s) = some s := by
  induction p with
  | nil => rfl
  | cons c cs ih => simp [stripPrefixChars, ih]

theorem splitFirstUnderscore_append (digits rest : List Char) (h : '_' ∉ digits) :
    splitFirstUnderscore (digits ++ '_' :: rest) = (digits, some rest) := by
  induction digits with
  | nil => simp [splitFirstUnderscore]
  | cons c cs ih =>
    have hc : ¬ c = '_' := fun hcon => h (hcon ▸ List.mem_cons_self _ _)
    have ih' := ih (fun hm => h (List.mem_cons_of_mem _ hm))
    simp only [List.cons_append, splitFirstUnderscore, if_neg hc, List.append_eq, ih']

theorem parseReportApiKeyFront_render (keyIdChars payloadChars : List Char)
    (h : '_' ∉ keyIdChars) :
    parseReportApiKeyFront (reportApiKeyValueChars keyIdChars payloadChars)
      = .ok (keyIdChars, payloadChars) := by
  unfold parseReportApiKeyFront reportApiKeyValueChars
  simp only [List.append_assoc, stripPrefixChars_append, splitFirstUnderscore_append _ _ h]

/-- C3 counterexample: the account id 5000000000 lies in the 10-digit
generation range, and its decimal string is exactly natToDecChars of it, yet
generate_value fails: the source parses the account id as a u32
(src/src/report_api_key.rs line 76) and 5000000000 exceeds the u32 maximum
4294967295, while account ids are drawn from 1000000000..=9999999999
(src/src/user.rs line 64). -/
theorem generate_value_u32_overflow_counterexample :
    (1000000000 ≤ 5000000000 ∧ 5000000000 ≤ 9999999999) ∧
    natToDecChars 5000000000 = "5000000000".toList ∧
    generate_value ⟨"https://api.archodex.example", List.range 16⟩ (List.range 12) 123456
        ("5000000000".toList) (List.range 16)
      = .error "Invalid account ID" := by
  refine ⟨by decide, by decide, ?_⟩
  rfl

/-- C3 amended: for every key id in 100000..=999999, a 16-byte account salt,
the configured endpoint, and every account id in the subrange
1000000000..=4294967295 of the 10-digit generation range that is
representable as a u32, generate_value succeeds and validate_value on its
output returns Ok with the same account id string and key id; the rendered
string round-trips through the prefix and underscore split. -/
theorem report_api_key_roundtrip (env : EnvConfig) (nonce : List Nat)
    (key_id account_id : Nat) (salt : List Nat)
    (hk1 : 100000 ≤ key_id) (hk2 : key_id ≤ 999999)
    (ha1 : 1000000000 ≤ account_id) (ha2 : account_id ≤ 4294967295)
    (hsalt : salt.length = 16) :
    ∃ v, generate_value env nonce key_id (natToDecChars account_id) salt = .ok v ∧
      validate_value env v = .ok (natToDecChars account_id, key_id) ∧
      ∀ payloadChars : List Char,
        parseReportApiKeyFront (reportApiKeyValueChars v.key_id_digits payloadChars)
          = .ok (v.key_id_digits, payloadChars) := by
  have hparseAcc : parseU32Chars (natToDecChars account_id) = some account_id :=
    parseU32Chars_natToDecChars account_id (by omega)
  have hparseKey : parseU32Chars (natToDecChars key_id) = some key_id :=
    parseU32Chars_natToDecChars key_id (by omega)
  refine ⟨⟨natToDecChars key_id,
      .ofProto ⟨1, env.endpoint, salt, nonce,
        aeadEncrypt env.api_private_key nonce ⟨account_id⟩ ⟨key_id, env.endpoint, salt⟩⟩⟩,
    ?_, ?_, ?_⟩
  · unfold generate_value
    rw [hparseAcc]
  · unfold validate_value
    simp only [hparseKey]
    rw [if_pos (⟨hk1, hk2⟩ : 100000 ≤ key_id ∧ key_id ≤ 999999)]
    simp only [aeadEncrypt, aeadDecrypt]
    simp [hsalt, ha1]
  · intro payloadChars
    exact parseReportApiKeyFront_render _ _ (natToDecChars_no_underscore key_id)

/-- C3 witness: concrete parameters with a u32-representable account id. -/
theorem report_api_key_roundtrip_witness :
    (100000 ≤ 123456 ∧ 123456 ≤ 999999 ∧ 1000000000 ≤ 1234567890 ∧
      1234567890 ≤ 4294967295 ∧ (List.range 16).length = 16) ∧
    ∃ v, generate_value ⟨"https://api.archodex.example", List.range 16⟩ (List.range 12)
          123456 (natToDecChars 1234567890) (List.range 16) = .ok v ∧
      validate_value ⟨"https://api.archodex.example", List.range 16⟩ v
        = .ok (natToDecChars 1234567890, 123456) ∧
      ∀ payloadChars : List Char,
        parseReportApiKeyFront (reportApiKeyValueChars v.key_id_digits payloadChars)
          = .ok (v.key_id_digits, payloadChars) :=
  ⟨⟨by decide, by decide, by decide, by decide, by decide⟩,
    report_api_key_roundtrip ⟨"https://api.archodex.example", List.range 16⟩
      (List.range 12) 123456 1234567890 (List.range 16)
      (by decide) (by decide) (by decide) (by decide) (by decide)⟩
